import Mathlib

/-!
Verification development for the RC car frequency scanner
(`rc_freq_scanner.py`, class `RCFrequencyScanner`).

Shallow embedding conventions:
* Frequencies, sample rates, durations and steps are exact rationals (`ℚ`);
  the Python source uses floats, which we idealise as exact arithmetic.
* Baseband samples are complex numbers (`ℂ`); spectra, envelopes and phases
  are real numbers (`ℝ`).
* The RTL-SDR front end is an external collaborator.  It is modelled as a
  pair of oracles (`FrontEnd`): tuning and sample reads may fail, which
  models the driver raising an exception (`Except String`).
* The mutable attributes of the scanner object (`self.sdr.center_freq`,
  `self.sdr.sample_rate`, `self.sdr.gain`, `self.detected_signals`) are a
  `ScannerState` record threaded through each operation.
* Every front-end command issued by a scan or a capture is recorded in an
  `Op` trace so that theorems can speak about which tune/read operations
  the code performs, in order.
* `time.sleep` settle delays, `print` calls, `datetime.now()` timestamps
  and the file persistence in `capture_signal` are outside the embedding
  (the spec excludes persistence and the interactive layer; no claim
  mentions timestamps).
* `np.var` of an empty array is NaN (with a runtime warning), and every
  comparison against NaN is false in Python.  NaN is modelled as `none`
  of `Option ℝ`, and the comparison `nanGT` is false whenever either side
  is `none`.
-/

open Classical

/-- Python `int(x)`: truncation toward zero. -/
def pyInt (x : ℚ) : ℤ :=
  if 0 ≤ x then ⌊x⌋ else ⌈x⌉

/-- The sample count requested from the front end:
`int(self.sdr.sample_rate * duration)` (lines 42 and 69 of the source). -/
def readCount (sample_rate duration : ℚ) : ℕ :=
  (pyInt (sample_rate * duration)).toNat

/-- Detection record built at line 51 of the source
(`{'frequency': freq, 'power_db': 10*np.log10(max_power), 'timestamp': ...}`).
The wall-clock timestamp is outside the embedding. -/
structure Detection where
  frequency : ℚ
  power_db : ℝ

/-- The mutable state of `RCFrequencyScanner` / its `RtlSdr` handle:
`self.sdr.center_freq`, `self.sdr.sample_rate`, `self.sdr.gain` and
`self.detected_signals` (lines 25-29). -/
structure ScannerState where
  center_freq : ℚ
  sample_rate : ℚ
  gain : String
  detected_signals : List Detection

/-- `RCFrequencyScanner.__init__` with the default arguments
`center_freq=27.145e6`, `sample_rate=2.4e6`: sets `gain = 'auto'` and
`detected_signals = []`. -/
def initScanner : ScannerState :=
  { center_freq := 27145000, sample_rate := 2400000, gain := "auto",
    detected_signals := [] }

/-- A command issued to the radio front end: tuning to a frequency
(`self.sdr.center_freq = f`) or reading a number of samples
(`self.sdr.read_samples(n)` while tuned to `f`). -/
inductive Op where
  | tune (freq : ℚ)
  | read (freq : ℚ) (count : ℕ)
deriving DecidableEq

/-- The radio front-end collaborator.  `tune f` models the
`center_freq` property setter (which may raise), and `read f n` models
`read_samples(n)` while tuned to `f` (which may raise, and otherwise
returns a window of complex baseband samples). -/
structure FrontEnd where
  tune : ℚ → Except String Unit
  read : ℚ → ℕ → Except String (List ℂ)

/-- `signal_data` built by `capture_signal` (lines 71-76); the timestamp
and the file persistence are outside the embedding. -/
structure CapturedSignal where
  frequency : ℚ
  sample_rate : ℚ
  samples : List ℂ

/-- One bin of `np.fft.fft(samples)`:
`X_k = Σ_j x_j · exp(-2πi·j·k/N)` with `N = samples.length`. -/
noncomputable def dft (w : List ℂ) (k : ℕ) : ℂ :=
  ∑ j ∈ Finset.range w.length,
    w.getD j 0 * Complex.exp (-(2 * (Real.pi : ℂ) * Complex.I) * j * k / w.length)

/-- `power = np.abs(np.fft.fft(samples))**2` (line 45): squared magnitude
per DFT bin. -/
noncomputable def powerSpectrum (w : List ℂ) : List ℝ :=
  (List.range w.length).map fun k => Complex.abs (dft w k) ^ 2

/-- `avg_power = np.mean(power)` (line 46): arithmetic mean over all bins. -/
noncomputable def meanPower (w : List ℂ) : ℝ :=
  (powerSpectrum w).sum / w.length

/-- `max_power = np.max(power)` (line 47).  `np.max` of an empty array
raises; on nonempty lists of (nonnegative) powers `foldr max 0` agrees
with it, and every window read during a scan with a positive requested
count is nonempty. -/
noncomputable def maxPower (w : List ℂ) : ℝ :=
  (powerSpectrum w).foldr max 0

/-- The detection decision of the scan loop body (lines 50-56): declare a
signal present iff `max_power > avg_power * 10` (hard-coded threshold
multiplier 10), and report `power_db = 10 * log10(max_power)` together
with the currently tuned frequency. -/
noncomputable def detectSignal (freq : ℚ) (samples : List ℂ) : Option Detection :=
  if maxPower samples > meanPower samples * 10 then
    some { frequency := freq, power_db := 10 * Real.logb 10 (maxPower samples) }
  else
    none

/-- Termination measure of the `while freq <= end_freq` loop: an upper
bound (plus one) on the number of remaining iterations. -/
def scanMeasure (stop step freq : ℚ) : ℕ :=
  (⌈(stop - freq) / step⌉ + 1).toNat

/-- The `while freq <= end_freq` loop of `scan_frequency_range`
(lines 36-59), one call per iteration, started at `freq = start_freq`.
Each iteration: set `self.sdr.center_freq = freq` (may raise), read
`int(self.sdr.sample_rate * duration)` samples (may raise), run the
detection of lines 44-56, advance `freq += step`.  A raised exception
aborts the loop; the local `detected` list is lost and the caller
receives only the error.  The returned triple is (final scanner state,
trace of front-end commands, error or detection list). -/
noncomputable def scanLoop (fe : FrontEnd) (stop step duration : ℚ) (hstep : 0 < step)
    (freq : ℚ) (s : ScannerState) :
    ScannerState × List Op × Except String (List Detection) :=
  if h : freq ≤ stop then
    match fe.tune freq with
    | .error e => (s, [Op.tune freq], .error e)
    | .ok _ =>
      match fe.read freq (readCount s.sample_rate duration) with
      | .error e =>
          ({ s with center_freq := freq },
           [Op.tune freq, Op.read freq (readCount s.sample_rate duration)],
           .error e)
      | .ok samples =>
          match scanLoop fe stop step duration hstep (freq + step)
              { s with center_freq := freq } with
          | (sEnd, trace, result) =>
              (sEnd,
               Op.tune freq :: Op.read freq (readCount s.sample_rate duration) :: trace,
               result.map fun rest =>
                 match detectSignal freq samples with
                 | some d => d :: rest
                 | none => rest)
  else
    (s, [], .ok [])
termination_by scanMeasure stop step freq
decreasing_by
  unfold scanMeasure
  have hne : step ≠ 0 := ne_of_gt hstep
  have h1 : (stop - (freq + step)) / step = (stop - freq) / step - 1 := by
    field_simp
    ring
  have h2 : ⌈(stop - (freq + step)) / step⌉ = ⌈(stop - freq) / step⌉ - 1 := by
    rw [h1]
    exact_mod_cast Int.ceil_sub_one ((stop - freq) / step)
  have h3 : 0 ≤ ⌈(stop - freq) / step⌉ :=
    Int.ceil_nonneg (div_nonneg (by linarith) hstep.le)
  omega

/-- `RCFrequencyScanner.scan_frequency_range(start_freq, end_freq, step,
duration)` (lines 31-61): run the sweep loop from `start_freq`. -/
noncomputable def scan_frequency_range (fe : FrontEnd) (s : ScannerState)
    (start_freq end_freq step duration : ℚ) (hstep : 0 < step) :
    ScannerState × List Op × Except String (List Detection) :=
  scanLoop fe end_freq step duration hstep start_freq s

/-- `RCFrequencyScanner.capture_signal(frequency, duration)` (lines 63-89):
tune, read `int(self.sdr.sample_rate * duration)` samples, and return the
captured record (file persistence and timestamp are outside the
embedding). -/
noncomputable def capture_signal (fe : FrontEnd) (s : ScannerState)
    (frequency duration : ℚ) :
    ScannerState × List Op × Except String CapturedSignal :=
  match fe.tune frequency with
  | .error e => (s, [Op.tune frequency], .error e)
  | .ok _ =>
    match fe.read frequency (readCount s.sample_rate duration) with
    | .error e =>
        ({ s with center_freq := frequency },
         [Op.tune frequency, Op.read frequency (readCount s.sample_rate duration)],
         .error e)
    | .ok samples =>
        ({ s with center_freq := frequency },
         [Op.tune frequency, Op.read frequency (readCount s.sample_rate duration)],
         .ok { frequency := frequency, sample_rate := s.sample_rate,
               samples := samples })

/-- `np.diff x`: consecutive differences `x[i+1] - x[i]`. -/
def diffR : List ℝ → List ℝ
  | [] => []
  | [_] => []
  | a :: b :: t => (b - a) :: diffR (b :: t)

/-- `np.mod x m` (floored modulo): `x - m * ⌊x / m⌋`. -/
noncomputable def pyMod (x m : ℝ) : ℝ := x - m * ⌊x / m⌋

/-- The per-difference correction applied by `np.unwrap` with the default
`discont = π` and `period = 2π`: map the difference into `[-π, π)`
(choosing `+π` for a positive difference that lands on `-π`), and leave
differences smaller than the discontinuity threshold untouched. -/
noncomputable def phaseCorrection (d : ℝ) : ℝ :=
  if |d| < Real.pi then 0
  else
    (if pyMod (d + Real.pi) (2 * Real.pi) - Real.pi = -Real.pi ∧ 0 < d then Real.pi
     else pyMod (d + Real.pi) (2 * Real.pi) - Real.pi) - d

/-- Recursive form of `np.unwrap`'s cumulative-correction pass:
`prev` is the last unwrapped value, `prevOrig` the last original value;
each new value receives the accumulated corrections plus the correction
of its own difference. -/
noncomputable def unwrapFrom (prev prevOrig : ℝ) : List ℝ → List ℝ
  | [] => []
  | x :: rest =>
      (prev + (x - prevOrig) + phaseCorrection (x - prevOrig)) ::
        unwrapFrom (prev + (x - prevOrig) + phaseCorrection (x - prevOrig)) x rest

/-- `np.unwrap p` (default `discont = π`, `period = 2π`): the first value
is kept, and `up[i+1] = up[i] + dd_i + correction(dd_i)` where
`dd = np.diff p` — equivalent to numpy's
`p[1:] + cumsum(ph_correct)` formulation. -/
noncomputable def unwrap : List ℝ → List ℝ
  | [] => []
  | a :: rest => a :: unwrapFrom a a rest

/-- `np.var l` on a nonempty real array: mean squared deviation from the
mean (`ddof = 0`). -/
noncomputable def varList (l : List ℝ) : ℝ :=
  (l.map fun x => (x - l.sum / l.length) ^ 2).sum / l.length

/-- `np.var l` including the empty case: NaN (modelled as `none`) on an
empty array. -/
noncomputable def pyVar (l : List ℝ) : Option ℝ :=
  if l = [] then none else some (varList l)

/-- Python `a > b` where either side may be NaN (`none`): the comparison
holds only when both sides are actual numbers and the first is greater;
any comparison involving NaN is false. -/
def nanGT (a b : Option ℝ) : Prop :=
  ∃ x y, a = some x ∧ b = some y ∧ y < x

/-- `RCFrequencyScanner.analyze_modulation(samples)` (lines 91-105):
envelope variance vs. variance of the instantaneous frequency
(`np.diff(np.unwrap(np.angle(samples))) / (2π) * self.sdr.sample_rate`),
returning the source's literal strings. -/
noncomputable def analyze_modulation (sample_rate : ℚ) (samples : List ℂ) : String :=
  let analytic_signal := samples.map Complex.abs
  let phase := unwrap (samples.map Complex.arg)
  let inst_freq := (diffR phase).map fun d => d / (2 * Real.pi) * (sample_rate : ℝ)
  let am_variance := pyVar analytic_signal
  let fm_variance := pyVar inst_freq
  if nanGT am_variance (fm_variance.map fun v => v * 2) then
    "Likely AM (Amplitude Modulation)"
  else
    "Likely FM (Frequency Modulation)"

/-- Number of iterations of the sweep loop: the values
`start + k * step` with `start + k * step ≤ stop` are exactly
`k = 0, …, ⌊(stop - start) / step⌋` when `start ≤ stop` (for `step > 0`),
and there are none otherwise. -/
def numSteps (start stop step : ℚ) : ℕ :=
  if start ≤ stop then (⌊(stop - start) / step⌋ + 1).toNat else 0

/-- The ascending list of frequencies `start + k * step` visited by the
sweep. -/
def freqList (start stop step : ℚ) : List ℚ :=
  (List.range (numSteps start stop step)).map fun k : ℕ => start + (k : ℚ) * step

/-- A deterministic in-memory front end that always succeeds and returns
all-zero windows of the requested length. -/
def feReplicate : FrontEnd :=
  { tune := fun _ => Except.ok ()
    read := fun _ n => Except.ok (List.replicate n 0) }

/-- A front end whose tuner always fails. -/
def feTuneFail : FrontEnd :=
  { tune := fun _ => Except.error "tune unavailable"
    read := fun _ n => Except.ok (List.replicate n 0) }

theorem scanMeasure_ceil_nonneg {stop step freq : ℚ} (h : freq ≤ stop) (hstep : 0 < step) :
    0 ≤ ⌈(stop - freq) / step⌉ :=
  Int.ceil_nonneg (div_nonneg (by linarith) hstep.le)

theorem scanMeasure_succ {stop step freq : ℚ} (h : freq ≤ stop) (hstep : 0 < step) :
    scanMeasure stop step (freq + step) + 1 = scanMeasure stop step freq := by
  have hne : step ≠ 0 := ne_of_gt hstep
  have h1 : (stop - (freq + step)) / step = (stop - freq) / step - 1 := by
    field_simp
    ring
  have h2 : ⌈(stop - (freq + step)) / step⌉ = ⌈(stop - freq) / step⌉ - 1 := by
    rw [h1]
    exact_mod_cast Int.ceil_sub_one ((stop - freq) / step)
  have h3 : 0 ≤ ⌈(stop - freq) / step⌉ := scanMeasure_ceil_nonneg h hstep
  unfold scanMeasure
  omega

theorem numSteps_of_lt {start stop step : ℚ} (h : stop < start) :
    numSteps start stop step = 0 := by
  simp [numSteps, not_le.mpr h]

theorem numSteps_succ {start stop step : ℚ} (h : start ≤ stop) (hstep : 0 < step) :
    numSteps start stop step = numSteps (start + step) stop step + 1 := by
  have hne : step ≠ 0 := ne_of_gt hstep
  unfold numSteps
  by_cases h2 : start + step ≤ stop
  · rw [if_pos h, if_pos h2]
    have e1 : (stop - (start + step)) / step = (stop - start) / step - 1 := by
      field_simp
      ring
    have e2 : ⌊(stop - (start + step)) / step⌋ = ⌊(stop - start) / step⌋ - 1 := by
      rw [e1]
      exact_mod_cast Int.floor_sub_one ((stop - start) / step)
    have e3 : 0 ≤ ⌊(stop - (start + step)) / step⌋ :=
      Int.floor_nonneg.mpr (div_nonneg (by linarith) hstep.le)
    omega
  · rw [if_pos h, if_neg h2]
    have e0 : 0 ≤ (stop - start) / step := div_nonneg (by linarith) hstep.le
    have e1 : (stop - start) / step < 1 := by
      rw [div_lt_one hstep]
      linarith [not_le.mp h2]
    have e2 : ⌊(stop - start) / step⌋ = 0 := Int.floor_eq_zero_iff.mpr ⟨e0, e1⟩
    omega

theorem freqList_of_lt {start stop step : ℚ} (h : stop < start) :
    freqList start stop step = [] := by
  simp [freqList, numSteps_of_lt h]

theorem freqList_cons {start stop step : ℚ} (h : start ≤ stop) (hstep : 0 < step) :
    freqList start stop step = start :: freqList (start + step) stop step := by
  unfold freqList
  rw [numSteps_succ h hstep, List.range_succ_eq_map, List.map_cons, List.map_map]
  congr 1
  · push_cast
    ring
  · refine List.map_congr_left ?_
    intro k _
    simp only [Function.comp_apply]
    push_cast
    ring

/-- Membership in the sweep: `start + k * step` is visited exactly when it
does not exceed `stop`. -/
theorem lt_numSteps_iff {start stop step : ℚ} (hstep : 0 < step) (k : ℕ) :
    k < numSteps start stop step ↔ start + k * step ≤ stop := by
  unfold numSteps
  by_cases h : start ≤ stop
  · rw [if_pos h]
    have e0 : 0 ≤ ⌊(stop - start) / step⌋ :=
      Int.floor_nonneg.mpr (div_nonneg (by linarith) hstep.le)
    have e1 : ((k : ℤ) ≤ ⌊(stop - start) / step⌋) ↔ ((k : ℚ) ≤ (stop - start) / step) :=
      Int.le_floor
    rw [le_div_iff₀ hstep] at e1
    constructor
    · intro hk
      have : (k : ℤ) ≤ ⌊(stop - start) / step⌋ := by omega
      have := e1.mp this
      linarith
    · intro hk
      have : (k : ℚ) * step ≤ stop - start := by linarith
      have := e1.mpr this
      omega
  · rw [if_neg h]
    simp only [Nat.not_lt_zero, false_iff, not_le]
    have hk : 0 ≤ (k : ℚ) * step := mul_nonneg (Nat.cast_nonneg k) hstep.le
    linarith [not_le.mp h]

/-- The final scanner state of a scan differs from the initial one at most
in the tuned center frequency. -/
theorem scanLoop_state (fe : FrontEnd) (stop step duration : ℚ) (hstep : 0 < step) :
    ∀ (n : ℕ) (freq : ℚ) (s : ScannerState), scanMeasure stop step freq ≤ n →
      ∃ c, (scanLoop fe stop step duration hstep freq s).1 = { s with center_freq := c } := by
  intro n
  induction n with
  | zero =>
    intro freq s hm
    have hfs : ¬ freq ≤ stop := by
      intro hle
      have h3 := scanMeasure_ceil_nonneg hle hstep
      unfold scanMeasure at hm
      omega
    rw [scanLoop]
    rw [dif_neg hfs]
    exact ⟨s.center_freq, rfl⟩
  | succ n ih =>
    intro freq s hm
    rw [scanLoop]
    by_cases hfs : freq ≤ stop
    · rw [dif_pos hfs]
      cases ht : fe.tune freq with
      | error e => exact ⟨s.center_freq, rfl⟩
      | ok u =>
        cases hr : fe.read freq (readCount s.sample_rate duration) with
        | error e => exact ⟨freq, rfl⟩
        | ok samples =>
          have hm' : scanMeasure stop step (freq + step) ≤ n := by
            have := scanMeasure_succ hfs hstep
            omega
          obtain ⟨c, hc⟩ := ih (freq + step) { s with center_freq := freq } hm'
          refine ⟨c, ?_⟩
          rcases hx : scanLoop fe stop step duration hstep (freq + step)
              { s with center_freq := freq } with ⟨sEnd, trace, result⟩
          rw [hx] at hc
          exact hc
    · rw [dif_neg hfs]
      exact ⟨s.center_freq, rfl⟩

theorem scanMeasure_zero_not_le {stop step freq : ℚ} (hstep : 0 < step)
    (hm : scanMeasure stop step freq ≤ 0) : ¬ freq ≤ stop := by
  intro hle
  have h3 := scanMeasure_ceil_nonneg hle hstep
  unfold scanMeasure at hm
  omega

/-- A detection produced by the loop body carries the tuned frequency and
`10 * log10(max_power)`. -/
theorem detectSignal_some {freq : ℚ} {w : List ℂ} {d : Detection}
    (h : detectSignal freq w = some d) :
    d.frequency = freq ∧ d.power_db = 10 * Real.logb 10 (maxPower w) := by
  rw [detectSignal] at h
  split_ifs at h
  cases h
  exact ⟨rfl, rfl⟩

theorem powerSpectrum_nonneg (w : List ℂ) : ∀ x ∈ powerSpectrum w, 0 ≤ x := by
  intro x hx
  obtain ⟨k, _, rfl⟩ := List.mem_map.mp hx
  exact sq_nonneg _

theorem le_foldr_max (l : List ℝ) : ∀ x ∈ l, x ≤ l.foldr max 0 := by
  intro x hx
  induction l with
  | nil => cases hx
  | cons a t ih =>
    rcases List.mem_cons.mp hx with h | h
    · subst h
      exact le_max_left x _
    · exact le_trans (ih h) (le_max_right a _)

/-- When the peak power is non-positive every bin is zero, the mean is
zero, the threshold test `max_power > avg_power * 10` fails, and the
`log10` branch is never entered. -/
theorem detectSignal_none_of_nonpos {freq : ℚ} {w : List ℂ}
    (h : maxPower w ≤ 0) : detectSignal freq w = none := by
  have hz : ∀ x ∈ powerSpectrum w, x = 0 := fun x hx =>
    le_antisymm (le_trans (le_foldr_max _ x hx) h) (powerSpectrum_nonneg w x hx)
  have hmean : meanPower w = 0 := by
    rw [meanPower, List.sum_eq_zero hz, zero_div]
  have hng : ¬ meanPower w * 10 < maxPower w := by
    rw [hmean, zero_mul]
    exact not_lt.mpr h
  rw [detectSignal, if_neg hng]

theorem dft_replicate_zero (n k : ℕ) : dft (List.replicate n (0 : ℂ)) k = 0 := by
  unfold dft
  refine Finset.sum_eq_zero fun j _ => ?_
  simp [List.getD]

theorem powerSpectrum_replicate_zero (n : ℕ) :
    powerSpectrum (List.replicate n (0 : ℂ)) = List.replicate n 0 := by
  unfold powerSpectrum
  rw [List.length_replicate]
  have hz : ∀ k ∈ List.range n,
      Complex.abs (dft (List.replicate n (0 : ℂ)) k) ^ 2 = (fun _ : ℕ => (0 : ℝ)) k := by
    intro k _
    rw [dft_replicate_zero]
    simp
  rw [List.map_congr_left hz]
  simp [List.eq_replicate_iff]

theorem foldr_max_replicate_zero (n : ℕ) :
    (List.replicate n (0 : ℝ)).foldr max 0 = 0 := by
  induction n with
  | zero => rfl
  | succ m ih =>
    rw [List.replicate_succ, List.foldr_cons, ih]
    simp

theorem maxPower_replicate_zero (n : ℕ) : maxPower (List.replicate n (0 : ℂ)) = 0 := by
  rw [maxPower, powerSpectrum_replicate_zero, foldr_max_replicate_zero]

theorem detectSignal_replicate_zero (f : ℚ) (n : ℕ) :
    detectSignal f (List.replicate n (0 : ℂ)) = none :=
  detectSignal_none_of_nonpos (by rw [maxPower_replicate_zero])

theorem feReplicate_len : ∀ f n l, feReplicate.read f n = Except.ok l → l.length = n := by
  intro f n l h
  cases h
  exact List.length_replicate n 0

theorem feReplicate_read : ∀ f n, ∃ l, feReplicate.read f n = Except.ok l :=
  fun _ n => ⟨List.replicate n 0, rfl⟩

theorem diffR_length : ∀ l : List ℝ, (diffR l).length = l.length - 1
  | [] => rfl
  | [_] => rfl
  | a :: b :: t => by
    show ((b - a) :: diffR (b :: t)).length = (a :: b :: t).length - 1
    simp [diffR_length (b :: t)]

theorem unwrapFrom_length : ∀ (p q : ℝ) (l : List ℝ), (unwrapFrom p q l).length = l.length
  | _, _, [] => rfl
  | p, q, x :: rest => by
    show (_ :: unwrapFrom _ x rest).length = (x :: rest).length
    simp [unwrapFrom_length _ x rest]

theorem unwrap_length : ∀ l : List ℝ, (unwrap l).length = l.length
  | [] => rfl
  | a :: rest => by
    show (a :: unwrapFrom a a rest).length = (a :: rest).length
    simp [unwrapFrom_length]

/-- The trace of front-end commands issued by the sweep, when the front
end never fails: one tune and one read, with the fixed requested count,
per visited frequency, in sweep order. -/
theorem scanLoop_trace (fe : FrontEnd) (stop step duration : ℚ) (hstep : 0 < step)
    (htune : ∀ f, fe.tune f = Except.ok ())
    (hread : ∀ f n, ∃ l, fe.read f n = Except.ok l) :
    ∀ (n : ℕ) (freq : ℚ) (s : ScannerState), scanMeasure stop step freq ≤ n →
      (scanLoop fe stop step duration hstep freq s).2.1 =
        (freqList freq stop step).flatMap
          (fun f => [Op.tune f, Op.read f (readCount s.sample_rate duration)]) := by
  intro n
  induction n with
  | zero =>
    intro freq s hm
    have hfs := scanMeasure_zero_not_le hstep hm
    rw [scanLoop, dif_neg hfs, freqList_of_lt (not_le.mp hfs)]
    rfl
  | succ n ih =>
    intro freq s hm
    rw [scanLoop]
    by_cases hfs : freq ≤ stop
    · rw [dif_pos hfs]
      obtain ⟨l, hl⟩ := hread freq (readCount s.sample_rate duration)
      have ihx := ih (freq + step) { s with center_freq := freq }
        (by have := scanMeasure_succ hfs hstep; omega)
      rcases hx : scanLoop fe stop step duration hstep (freq + step)
          { s with center_freq := freq } with ⟨sEnd, trace, result⟩
      rw [hx] at ihx
      dsimp only at ihx
      simp only [htune, hl, hx]
      rw [freqList_cons hfs hstep]
      simp only [List.flatMap_cons, List.cons_append, List.nil_append]
      rw [ihx]
    · rw [dif_neg hfs, freqList_of_lt (not_le.mp hfs)]
      rfl

/-- Every detection returned by the sweep loop started at `freq` has
frequency at least `freq`, and the returned sequence is sorted by
frequency. -/
theorem scanLoop_mono (fe : FrontEnd) (stop step duration : ℚ) (hstep : 0 < step) :
    ∀ (n : ℕ) (freq : ℚ) (s : ScannerState) (l : List Detection),
      scanMeasure stop step freq ≤ n →
      (scanLoop fe stop step duration hstep freq s).2.2 = Except.ok l →
      (∀ d ∈ l, freq ≤ d.frequency) ∧
        l.Pairwise (fun a b => a.frequency ≤ b.frequency) := by
  intro n
  induction n with
  | zero =>
    intro freq s l hm hok
    have hfs := scanMeasure_zero_not_le hstep hm
    rw [scanLoop, dif_neg hfs] at hok
    dsimp only at hok
    cases hok
    exact ⟨by simp, List.Pairwise.nil⟩
  | succ n ih =>
    intro freq s l hm hok
    rw [scanLoop] at hok
    by_cases hfs : freq ≤ stop
    · rw [dif_pos hfs] at hok
      cases ht : fe.tune freq with
      | error e =>
        rw [ht] at hok
        simp at hok
      | ok u =>
        rw [ht] at hok
        cases hr : fe.read freq (readCount s.sample_rate duration) with
        | error e =>
          rw [hr] at hok
          simp at hok
        | ok samples =>
          rw [hr] at hok
          rcases hx : scanLoop fe stop step duration hstep (freq + step)
              { s with center_freq := freq } with ⟨sEnd, trace, result⟩
          rw [hx] at hok
          dsimp only at hok
          cases result with
          | error e => simp [Except.map] at hok
          | ok rest =>
            simp only [Except.map, Except.ok.injEq] at hok
            obtain ⟨hlb, hpw⟩ := ih (freq + step) { s with center_freq := freq } rest
              (by have := scanMeasure_succ hfs hstep; omega)
              (by rw [hx])
            have hstep' : ∀ d ∈ rest, freq ≤ d.frequency := by
              intro d hd
              have := hlb d hd
              linarith
            cases hd : detectSignal freq samples with
            | none =>
              rw [hd] at hok
              dsimp only at hok
              subst hok
              exact ⟨hstep', hpw⟩
            | some d0 =>
              rw [hd] at hok
              dsimp only at hok
              subst hok
              have hd0 := (detectSignal_some hd).1
              refine ⟨?_, ?_⟩
              · intro d hdm
                rcases List.mem_cons.mp hdm with h | h
                · subst h
                  rw [hd0]
                · exact hstep' d h
              · refine List.Pairwise.cons ?_ hpw
                intro b hb
                rw [hd0]
                exact hstep' b hb
    · rw [dif_neg hfs] at hok
      dsimp only at hok
      cases hok
      exact ⟨by simp, List.Pairwise.nil⟩

/-- If any step of the sweep whose frequency is within range has a
failing tune or read, the whole sweep returns an error (the local
detection list is lost with the raised exception). -/
theorem scanLoop_error (fe : FrontEnd) (stop step duration : ℚ) (hstep : 0 < step) :
    ∀ (k : ℕ) (freq : ℚ) (s : ScannerState),
      freq + (k : ℚ) * step ≤ stop →
      ((∃ e, fe.tune (freq + (k : ℚ) * step) = Except.error e) ∨
        (fe.tune (freq + (k : ℚ) * step) = Except.ok () ∧
          ∃ e, fe.read (freq + (k : ℚ) * step) (readCount s.sample_rate duration) =
            Except.error e)) →
      ∃ e, (scanLoop fe stop step duration hstep freq s).2.2 = Except.error e := by
  intro k
  induction k with
  | zero =>
    intro freq s hk hfail
    rw [show freq + ((0 : ℕ) : ℚ) * step = freq by push_cast; ring] at hk hfail
    rw [scanLoop, dif_pos hk]
    rcases hfail with ⟨e, he⟩ | ⟨ht, e, he⟩
    · rw [he]
      exact ⟨e, rfl⟩
    · rw [ht, he]
      exact ⟨e, rfl⟩
  | succ k ih =>
    intro freq s hk hfail
    have hnn : 0 ≤ (k : ℚ) * step := mul_nonneg (Nat.cast_nonneg k) hstep.le
    have hle : freq ≤ stop := by
      push_cast at hk
      linarith
    rw [scanLoop, dif_pos hle]
    cases ht : fe.tune freq with
    | error e => exact ⟨e, rfl⟩
    | ok u =>
      cases hr : fe.read freq (readCount s.sample_rate duration) with
      | error e => exact ⟨e, rfl⟩
      | ok samples =>
        have heq : freq + ((k + 1 : ℕ) : ℚ) * step = (freq + step) + (k : ℚ) * step := by
          push_cast
          ring
        rw [heq] at hk hfail
        obtain ⟨e, he⟩ := ih (freq + step) { s with center_freq := freq } hk hfail
        rcases hx : scanLoop fe stop step duration hstep (freq + step)
            { s with center_freq := freq } with ⟨sEnd, trace, result⟩
        rw [hx] at he
        refine ⟨e, ?_⟩
        simp only [hx]
        have he2 : result = Except.error e := he
        rw [he2]
        rfl

/-! ## Claim theorems -/

/-- C1: for every sample window, the spectral detector declares a signal
present if and only if `peak_power > mean_power * 10` (the scan's
hard-coded threshold multiplier), where power is the squared magnitude
per DFT bin, `mean_power` the arithmetic mean over all bins and
`peak_power` the maximum bin; on detection the reported `power_db` is
`10 * log10(peak_power)` and the reported frequency is the currently
tuned step frequency. -/
theorem claim_spectral_detection (freq : ℚ) (w : List ℂ) :
    ((∃ d, detectSignal freq w = some d) ↔ meanPower w * 10 < maxPower w) ∧
    ∀ d, detectSignal freq w = some d →
      d.frequency = freq ∧ d.power_db = 10 * Real.logb 10 (maxPower w) := by
  constructor
  · constructor
    · rintro ⟨d, hd⟩
      rw [detectSignal] at hd
      split_ifs at hd with hc
      exact hc
    · intro hc
      exact ⟨_, by rw [detectSignal, if_pos hc]⟩
  · intro d hd
    exact detectSignal_some hd

theorem claim_spectral_detection_witness :
    ((∃ d, detectSignal 27145000 (List.replicate 1 0) = some d) ↔
      meanPower (List.replicate 1 0) * 10 < maxPower (List.replicate 1 0)) ∧
    ∀ d, detectSignal 27145000 (List.replicate 1 0) = some d →
      d.frequency = 27145000 ∧
        d.power_db = 10 * Real.logb 10 (maxPower (List.replicate 1 0)) :=
  claim_spectral_detection 27145000 (List.replicate 1 0)

/-- C7: a window with non-positive peak power (in particular an all-zero
window, whose DFT bins are all zero) yields no detection, so the
`log10` branch is never evaluated on a non-positive argument. -/
theorem claim_nonpositive_peak_no_detection (freq : ℚ) (w : List ℂ)
    (h : maxPower w ≤ 0) : detectSignal freq w = none := by
  exact detectSignal_none_of_nonpos h

theorem claim_nonpositive_peak_no_detection_witness :
    maxPower (List.replicate 4 0) ≤ 0 ∧
      detectSignal 27145000 (List.replicate 4 0) = none :=
  ⟨by rw [maxPower_replicate_zero],
   claim_nonpositive_peak_no_detection 27145000 (List.replicate 4 0)
     (by rw [maxPower_replicate_zero])⟩

/-- C3 (code behaviour at the failing inputs): for windows with fewer
than 2 samples the classifier does NOT fail; `np.var` of the empty
envelope or empty phase-difference array is NaN, every NaN comparison is
false, and the classifier silently returns the FM label.  This
contradicts the spec's requirement to reject such windows. -/
theorem claim_short_window_classification (r : ℚ) (z : ℂ) :
    analyze_modulation r [] = "Likely FM (Frequency Modulation)" ∧
    analyze_modulation r [z] = "Likely FM (Frequency Modulation)" := by
  constructor
  · simp [analyze_modulation, pyVar, nanGT]
  · simp [analyze_modulation, unwrap, unwrapFrom, diffR, pyVar, nanGT]

/-- C9: a scan whose start frequency exceeds its end frequency issues no
front-end commands at all and returns the empty detection sequence with
the scanner state unchanged. -/
theorem claim_scan_empty_range (fe : FrontEnd) (s : ScannerState)
    (start stop step duration : ℚ) (hstep : 0 < step) (h : stop < start) :
    scan_frequency_range fe s start stop step duration hstep =
      (s, [], Except.ok []) := by
  rw [scan_frequency_range, scanLoop, dif_neg (not_le.mpr h)]

theorem claim_scan_empty_range_witness :
    (0 : ℚ) < 1 ∧
      scan_frequency_range feReplicate initScanner 1 0 1 1 one_pos =
        (initScanner, [], Except.ok []) :=
  ⟨one_pos,
   claim_scan_empty_range feReplicate initScanner 1 0 1 1 one_pos (by norm_num)⟩

/-- C10: whatever happens during a scan, the only scanner/front-end state
it can change is the tuned center frequency: sample rate, gain and the
`detected_signals` attribute are identical before and after. -/
theorem claim_scan_frame (fe : FrontEnd) (s : ScannerState)
    (start stop step duration : ℚ) (hstep : 0 < step) :
    (scan_frequency_range fe s start stop step duration hstep).1.sample_rate =
        s.sample_rate ∧
    (scan_frequency_range fe s start stop step duration hstep).1.gain = s.gain ∧
    (scan_frequency_range fe s start stop step duration hstep).1.detected_signals =
        s.detected_signals := by
  obtain ⟨c, hc⟩ :=
    scanLoop_state fe stop step duration hstep (scanMeasure stop step start) start s le_rfl
  rw [scan_frequency_range, hc]
  exact ⟨rfl, rfl, rfl⟩

theorem claim_scan_frame_witness :
    (scan_frequency_range feReplicate initScanner 0 2 1 1 one_pos).1.sample_rate =
        initScanner.sample_rate ∧
    (scan_frequency_range feReplicate initScanner 0 2 1 1 one_pos).1.gain =
        initScanner.gain ∧
    (scan_frequency_range feReplicate initScanner 0 2 1 1 one_pos).1.detected_signals =
        initScanner.detected_signals :=
  claim_scan_frame feReplicate initScanner 0 2 1 1 one_pos

/-- C6: if the front end fails to tune or to read at any step frequency
within the sweep range, the scan returns that failure as an error: the
caller receives no detection sequence at all, so any detections
accumulated before the failure are discarded. -/
theorem claim_scan_aborts (fe : FrontEnd) (s : ScannerState)
    (start stop step duration : ℚ) (hstep : 0 < step) (k : ℕ)
    (hk : start + (k : ℚ) * step ≤ stop)
    (hfail : (∃ e, fe.tune (start + (k : ℚ) * step) = Except.error e) ∨
      (fe.tune (start + (k : ℚ) * step) = Except.ok () ∧
        ∃ e, fe.read (start + (k : ℚ) * step) (readCount s.sample_rate duration) =
          Except.error e)) :
    ∃ e, (scan_frequency_range fe s start stop step duration hstep).2.2 =
      Except.error e := by
  rw [scan_frequency_range]
  exact scanLoop_error fe stop step duration hstep k start s hk hfail

theorem claim_scan_aborts_witness :
    ((0 : ℚ) + ((0 : ℕ) : ℚ) * 1 ≤ 5) ∧
      ∃ e, (scan_frequency_range feTuneFail initScanner 0 5 1 1 one_pos).2.2 =
        Except.error e :=
  ⟨by norm_num,
   claim_scan_aborts feTuneFail initScanner 0 5 1 1 one_pos 0 (by norm_num)
     (Or.inl ⟨"tune unavailable", rfl⟩)⟩

/-- C8: the detection sequence returned by a scan is non-decreasing in
its frequency field (stated for every sweep with positive step; every
forward sweep is an instance). -/
theorem claim_scan_sorted (fe : FrontEnd) (s : ScannerState)
    (start stop step duration : ℚ) (hstep : 0 < step) (l : List Detection)
    (hok : (scan_frequency_range fe s start stop step duration hstep).2.2 =
      Except.ok l) :
    l.Pairwise (fun a b => a.frequency ≤ b.frequency) := by
  rw [scan_frequency_range] at hok
  exact (scanLoop_mono fe stop step duration hstep (scanMeasure stop step start)
    start s l le_rfl hok).2

theorem claim_scan_sorted_witness :
    List.Pairwise (fun a b : Detection => a.frequency ≤ b.frequency)
      ([] : List Detection) :=
  claim_scan_sorted feReplicate initScanner 1 0 1 1 one_pos []
    (by rw [scan_frequency_range, scanLoop, dif_neg (by norm_num)])

/-- C5: with a working front end the sweep tunes and reads at exactly the
frequencies `start + k * step` in ascending order of `k`; frequency
`start + k * step` is visited precisely when it does not exceed
`end_freq`, and a sweep with `start = end` performs exactly one
tune+read step. -/
theorem claim_scan_visits (fe : FrontEnd) (s : ScannerState)
    (start stop step duration : ℚ) (hstep : 0 < step)
    (htune : ∀ f, fe.tune f = Except.ok ())
    (hread : ∀ f n, ∃ l, fe.read f n = Except.ok l) :
    (scan_frequency_range fe s start stop step duration hstep).2.1 =
      (freqList start stop step).flatMap
        (fun f => [Op.tune f, Op.read f (readCount s.sample_rate duration)]) ∧
    (∀ k : ℕ, k < numSteps start stop step ↔ start + (k : ℚ) * step ≤ stop) ∧
    (start = stop →
      (scan_frequency_range fe s start stop step duration hstep).2.1 =
        [Op.tune start, Op.read start (readCount s.sample_rate duration)]) := by
  have htr := scanLoop_trace fe stop step duration hstep htune hread
    (scanMeasure stop step start) start s le_rfl
  refine ⟨by rw [scan_frequency_range]; exact htr, fun k => lt_numSteps_iff hstep k, ?_⟩
  intro hEq
  subst hEq
  have h1 : freqList start start step = [start] := by
    rw [freqList_cons le_rfl hstep, freqList_of_lt (by linarith)]
  rw [scan_frequency_range, htr, h1]
  rfl

theorem claim_scan_visits_witness :
    (scan_frequency_range feReplicate initScanner 0 2 1 1 one_pos).2.1 =
      (freqList 0 2 1).flatMap
        (fun f => [Op.tune f, Op.read f (readCount initScanner.sample_rate 1)]) ∧
    (∀ k : ℕ, k < numSteps 0 2 1 ↔ (0 : ℚ) + (k : ℚ) * 1 ≤ 2) ∧
    ((0 : ℚ) = 2 →
      (scan_frequency_range feReplicate initScanner 0 2 1 1 one_pos).2.1 =
        [Op.tune 0, Op.read 0 (readCount initScanner.sample_rate 1)]) :=
  claim_scan_visits feReplicate initScanner 0 2 1 1 one_pos (fun _ => rfl)
    feReplicate_read

/-- C4 (amended): both the per-step read of a scan and the read of a
capture request exactly `int(sample_rate * duration)` samples — Python
`int` truncation toward zero, not round-to-nearest — and (front end
honouring its contract of returning as many samples as requested) the
captured window has exactly that many samples, stamped with the
requested frequency and the current sample rate. -/
theorem claim_read_counts (fe : FrontEnd) (s : ScannerState)
    (start stop step duration f d : ℚ) (hstep : 0 < step)
    (hlen : ∀ f0 n l, fe.read f0 n = Except.ok l → l.length = n)
    (htune : ∀ f0, fe.tune f0 = Except.ok ())
    (hread : ∀ f0 n, ∃ l, fe.read f0 n = Except.ok l) :
    (∀ f0 c, Op.read f0 c ∈ (scan_frequency_range fe s start stop step duration hstep).2.1 →
      c = readCount s.sample_rate duration) ∧
    (∀ sig, (capture_signal fe s f d).2.2 = Except.ok sig →
      sig.samples.length = readCount s.sample_rate d ∧
      sig.frequency = f ∧ sig.sample_rate = s.sample_rate ∧
      Op.read f (readCount s.sample_rate d) ∈ (capture_signal fe s f d).2.1) := by
  constructor
  · intro f0 c hmem
    have htr := scanLoop_trace fe stop step duration hstep htune hread
      (scanMeasure stop step start) start s le_rfl
    rw [scan_frequency_range, htr] at hmem
    obtain ⟨f1, _, hop⟩ := List.mem_flatMap.mp hmem
    rcases List.mem_cons.mp hop with h1 | h1
    · exact absurd h1 (by simp)
    · rcases List.mem_cons.mp h1 with h2 | h2
      · injection h2 with hf hc
      · cases h2
  · intro sig hsig
    obtain ⟨lw, hlw⟩ := hread f (readCount s.sample_rate d)
    rw [capture_signal] at hsig ⊢
    simp only [htune, hlw] at hsig ⊢
    cases hsig
    exact ⟨hlen f _ lw hlw, rfl, rfl, by simp⟩

theorem claim_read_counts_witness :
    (∀ f0 c, Op.read f0 c ∈
        (scan_frequency_range feReplicate initScanner 0 2 1 (1/2) one_pos).2.1 →
      c = readCount initScanner.sample_rate (1/2)) ∧
    (∀ sig, (capture_signal feReplicate initScanner 10 (1/4)).2.2 = Except.ok sig →
      sig.samples.length = readCount initScanner.sample_rate (1/4) ∧
      sig.frequency = 10 ∧ sig.sample_rate = initScanner.sample_rate ∧
      Op.read 10 (readCount initScanner.sample_rate (1/4)) ∈
        (capture_signal feReplicate initScanner 10 (1/4)).2.1) :=
  claim_read_counts feReplicate initScanner 0 2 1 (1/2) 10 (1/4) one_pos
    feReplicate_len (fun _ => rfl) feReplicate_read

/-- C4 counterexample: at `sample_rate = 7`, `duration = 1/4` the product
is `7/4`; the code requests and returns `int(7/4) = 1` sample, while the
claim's `round(7/4) = 2`.  So the count is truncated, not rounded to
nearest. -/
theorem claim_read_counts_cex :
    (capture_signal feReplicate
        { center_freq := 0, sample_rate := 7, gain := "auto", detected_signals := [] }
        10 (1/4)).2.2 =
      Except.ok { frequency := 10, sample_rate := 7, samples := [0] } ∧
    (([(0 : ℂ)] : List ℂ).length : ℤ) ≠ round ((7 : ℚ) * (1 / 4)) := by
  have hc : readCount 7 (1 / 4) = 1 := by
    rw [readCount, pyInt, if_pos (by norm_num)]
    norm_num
  constructor
  · rw [capture_signal]
    simp only [feReplicate, hc]
    rfl
  · norm_num [round_eq]

/-- C2 (amended): for windows with at least 2 samples the classifier
compares the envelope variance against twice the variance of the
instantaneous frequency — the unwrapped phase differences scaled by
`sample_rate / (2π)` — not of the raw unwrapped phase differences; it
returns the AM label iff `am_variance > fm_variance * 2` and the FM
label otherwise. -/
theorem claim_modulation_rule (rate : ℚ) (w : List ℂ) (h : 2 ≤ w.length) :
    analyze_modulation rate w = "Likely AM (Amplitude Modulation)" ↔
      varList (w.map Complex.abs) >
        varList ((diffR (unwrap (w.map Complex.arg))).map
          fun d => d / (2 * Real.pi) * (rate : ℝ)) * 2 := by
  have henv : w.map Complex.abs ≠ [] := by
    intro h0
    have hl := congrArg List.length h0
    rw [List.length_map, List.length_nil] at hl
    omega
  have hlen2 : ((diffR (unwrap (w.map Complex.arg))).map
      fun d => d / (2 * Real.pi) * (rate : ℝ)).length = w.length - 1 := by
    simp [diffR_length, unwrap_length]
  have hinst : ((diffR (unwrap (w.map Complex.arg))).map
      fun d => d / (2 * Real.pi) * (rate : ℝ)) ≠ [] := by
    intro h0
    rw [h0] at hlen2
    rw [List.length_nil] at hlen2
    omega
  have hcond : nanGT (pyVar (w.map Complex.abs))
      ((pyVar ((diffR (unwrap (w.map Complex.arg))).map
        fun d => d / (2 * Real.pi) * (rate : ℝ))).map fun v => v * 2) ↔
      varList ((diffR (unwrap (w.map Complex.arg))).map
        fun d => d / (2 * Real.pi) * (rate : ℝ)) * 2 <
        varList (w.map Complex.abs) := by
    rw [pyVar, if_neg henv, pyVar, if_neg hinst]
    simp [nanGT]
  simp only [analyze_modulation]
  by_cases hc : varList ((diffR (unwrap (w.map Complex.arg))).map
      fun d => d / (2 * Real.pi) * (rate : ℝ)) * 2 < varList (w.map Complex.abs)
  · rw [if_pos (hcond.mpr hc)]
    exact ⟨fun _ => hc, fun _ => rfl⟩
  · rw [if_neg (fun hcon => hc (hcond.mp hcon))]
    exact ⟨fun hEq => absurd hEq (by decide), fun hcon => absurd hcon hc⟩

theorem claim_modulation_rule_witness :
    2 ≤ ([1, 1] : List ℂ).length ∧
    (analyze_modulation 1 [1, 1] = "Likely AM (Amplitude Modulation)" ↔
      varList (([1, 1] : List ℂ).map Complex.abs) >
        varList ((diffR (unwrap (([1, 1] : List ℂ).map Complex.arg))).map
          fun d => d / (2 * Real.pi) * ((1 : ℚ) : ℝ)) * 2) :=
  ⟨by norm_num, claim_modulation_rule 1 [1, 1] (by norm_num)⟩

/-- C2 counterexample: with `sample_rate = 8` on the window `[4, 1, i]`
the envelope variance is `2` and the unwrapped phase differences are
`[0, π/2]` with variance `π²/16`, so the claim's rule
(`2 > π²/8`, since `π < 3.15`) predicts the AM label; but the code
scales the phase differences by `sample_rate / (2π)` into the
instantaneous frequency `[0, 2]` with variance `1`, so `2 > 2` fails and
the code returns the FM label.  The claim's stated rule is therefore
false on the code. -/
theorem claim_modulation_rule_cex :
    ¬ ((analyze_modulation 8 [4, 1, Complex.I] = "Likely AM (Amplitude Modulation)") ↔
      varList ([4, 1, Complex.I].map Complex.abs) >
        varList (diffR (unwrap ([4, 1, Complex.I].map Complex.arg))) * 2) := by
  have habs : ([4, 1, Complex.I].map Complex.abs) = [4, 1, 1] := by simp
  have harg : ([4, 1, Complex.I].map Complex.arg) = [0, 0, Real.pi / 2] := by
    simp [Complex.arg_one, Complex.arg_I]
  have hpc0 : phaseCorrection 0 = 0 := by
    have hlt : |(0 : ℝ)| < Real.pi := by simp [Real.pi_pos]
    rw [phaseCorrection, if_pos hlt]
  have hpch : phaseCorrection (Real.pi / 2) = 0 := by
    have hlt : |Real.pi / 2| < Real.pi := by
      rw [abs_of_nonneg (by positivity)]
      linarith [Real.pi_pos]
    rw [phaseCorrection, if_pos hlt]
  have hunw : unwrap [0, 0, Real.pi / 2] = [0, 0, Real.pi / 2] := by
    simp [unwrap, unwrapFrom, hpc0, hpch]
  have hdiff : diffR [0, 0, Real.pi / 2] = [0, Real.pi / 2] := by
    simp [diffR]
  have hinstf : ([0, Real.pi / 2].map fun d => d / (2 * Real.pi) * ((8 : ℚ) : ℝ)) =
      [0, 2] := by
    have h8 : ((8 : ℚ) : ℝ) = 8 := by norm_num
    have h2 : Real.pi / 2 / (2 * Real.pi) * (8 : ℝ) = 2 := by
      have hpi : Real.pi ≠ 0 := Real.pi_ne_zero
      field_simp
      ring
    simp only [h8]
    simp [h2]
  have hvar1 : varList [4, 1, 1] = 2 := by
    rw [varList]
    norm_num
  have hvar2 : varList [0, 2] = 1 := by
    rw [varList]
    norm_num
  have hvar3 : varList [0, Real.pi / 2] = Real.pi ^ 2 / 16 := by
    rw [varList]
    norm_num
    ring_nf
  have hngt : ¬ nanGT (pyVar ([4, 1, Complex.I].map Complex.abs))
      ((pyVar ((diffR (unwrap ([4, 1, Complex.I].map Complex.arg))).map
        fun d => d / (2 * Real.pi) * ((8 : ℚ) : ℝ))).map fun v => v * 2) := by
    rw [habs, harg, hunw, hdiff, hinstf]
    rw [pyVar, if_neg (by simp), pyVar, if_neg (by simp)]
    rw [hvar1, hvar2]
    simp [nanGT]
  have hres : analyze_modulation 8 [4, 1, Complex.I] =
      "Likely FM (Frequency Modulation)" := by
    simp only [analyze_modulation]
    rw [if_neg hngt]
  have htrue : varList ([4, 1, Complex.I].map Complex.abs) >
      varList (diffR (unwrap ([4, 1, Complex.I].map Complex.arg))) * 2 := by
    rw [habs, harg, hunw, hdiff, hvar1, hvar3]
    nlinarith [Real.pi_lt_d2, Real.pi_pos]
  intro hiff
  have hcontra := hiff.mpr htrue
  rw [hres] at hcontra
  exact absurd hcontra (by decide)
